import Mathlib

/-!
Verification of the HyperLogLog cardinality estimator (`hyperloglog.go`).

The Go code is shallowly embedded: machine integers (`uint8`, `uint16`,
`uint32`, `uint64`) become `ℕ` with explicit `% 2^w` at the points where the
Go code truncates; `float64` arithmetic is idealised as exact arithmetic, the
raw estimate in `ℚ` and `math.Log` as `Real.log`; fallible operations return
an explicit error component.  The helper routines `eb32`, `clz32`,
`countZeros`, `calculateEstimate` and `linearCounting` live in a file of the
repository that is not part of `src/`; they are modelled from the spec and
marked as such.
-/

namespace HLL

/-- Corresponds to `const two32 = 1 << 32`. -/
def two32 : ℕ := 1 <<< 32

/-- The `HyperLogLog` struct: `reg []uint8`, `m uint32`, `p uint8`,
`c uint64` (cached estimate), `z uint16` (zero-register count). -/
structure HyperLogLog where
  reg : List ℕ
  m : ℕ
  p : ℕ
  c : ℕ
  z : ℕ
deriving DecidableEq

/-- Modelled from the spec: bit extraction helper; `eb32 x hi lo` is the
value of bits `hi-1 .. lo` of the 32-bit value `x`.  The call site in `Add`
is `eb32(x, 32, 32-h.p)`, "the top `precision` bits of `x` (bits 31 down to
32−precision)". -/
def eb32 (bits : ℕ) (hi lo : ℕ) : ℕ := (bits % 2 ^ hi) / 2 ^ lo

/-- Modelled from the spec: `clz` is "the count of leading zero bits in the
32-bit value `w`": the number of positions `i` in `[0, 32)` whose bit
`31 - i` and all higher bits of `x` are clear. -/
def clz32 (x : ℕ) : ℕ := (List.range 32).countP (fun i => decide (x < 2 ^ (31 - i)))

/-- Modelled from the spec: the count of registers still at 0, recomputed
"by a full scan of the resulting array". -/
def countZeros (s : List ℕ) : ℕ := s.count 0

/-- Modelled from the spec: the standard HyperLogLog bias-correction
constant, "fixed published constants for m=16,32,64 and the asymptotic
formula 0.7213/(1+1.079/m) for larger m". -/
def alpha (m : ℕ) : ℚ :=
  if m = 16 then 673 / 1000
  else if m = 32 then 697 / 1000
  else if m = 64 then 709 / 1000
  else (7213 / 10000) / (1 + (1079 / 1000) / (m : ℚ))

/-- Modelled from the spec: the raw estimate
`raw = alpha_m * m^2 / sum_over_registers( 2^(-registers[i]) )` with
`m` the register count.  Float accumulation is idealised as exact `ℚ`. -/
def calculateEstimate (reg : List ℕ) : ℚ :=
  let sum : ℚ := (reg.map (fun v => ((2 : ℚ) ^ v)⁻¹)).sum
  let fm : ℚ := (reg.length : ℚ)
  alpha reg.length * fm * fm / sum

/-- Modelled from the spec: linear counting, `m * ln(m / zeros)`. -/
noncomputable def linearCounting (m v : ℕ) : ℝ :=
  (m : ℝ) * Real.log ((m : ℝ) / (v : ℝ))

/-- `doCount`: the three-regime estimate.  `m` and `z` are the struct fields
`h.m` and `h.z` read by the Go method; `reg` is `h.reg`.  The Go constant
expression `two32/30` is untyped-integer division, hence `two32 / 30` in `ℕ`.
`uint64` conversion of the nonnegative float results is `Nat.floor`. -/
noncomputable def doCount (m : ℕ) (reg : List ℕ) (z : ℕ) : ℕ :=
  let est := calculateEstimate reg
  if est ≤ (m : ℚ) * (5 / 2) then
    if z ≠ 0 then ⌊linearCounting m z⌋₊ else ⌊est⌋₊
  else if est < ((two32 / 30 : ℕ) : ℚ) then ⌊est⌋₊
  else ⌊(-(two32 : ℝ)) * Real.log (1 - (est : ℝ) / (two32 : ℝ))⌋₊

/-- `New(precision)`: validates the precision, otherwise builds the struct;
`h.z = uint16(h.m)` truncates `m` to 16 bits. -/
def New (precision : ℕ) : Except String HyperLogLog :=
  if precision > 16 ∨ precision < 4 then
    .error "precision must be between 4 and 16"
  else
    .ok { reg := List.replicate (1 <<< precision) 0
          m := 1 <<< precision
          p := precision
          c := 0
          z := (1 <<< precision) % 2 ^ 16 }

/-- `Clear()`: fresh register array, `h.z = uint16(h.m)`, cached estimate 0. -/
def Clear (h : HyperLogLog) : HyperLogLog :=
  { h with reg := List.replicate h.m 0, z := h.m % 2 ^ 16, c := 0 }

/-- `Add(item)`: `x` is the 32-bit hash `item.Sum32()`.  Index and rank are
computed as in the source; `h.z--` is a `uint16` decrement; out-of-range
register access is totalised with `getD`/`set` (the theorems carry the
in-bounds facts). -/
noncomputable def Add (h : HyperLogLog) (x : ℕ) : HyperLogLog :=
  let i := eb32 x 32 (32 - h.p)
  let w := ((x <<< h.p) % two32) ||| ((1 <<< (h.p - 1)) % two32)
  let zeroBits := clz32 w + 1
  if zeroBits > h.reg.getD i 0 then
    let z := if h.reg.getD i 0 = 0 then (h.z + (2 ^ 16 - 1)) % 2 ^ 16 else h.z
    let reg := h.reg.set i zeroBits
    { h with reg := reg, z := z, c := doCount h.m reg z }
  else h

/-- The register loop of `Merge`: `for i, v := range other.reg` writes
`other.reg[i]` into `h.reg[i]` when strictly larger. -/
def mergeReg : List ℕ → List ℕ → List ℕ
  | a :: as, b :: bs => (if b > a then b else a) :: mergeReg as bs
  | as, [] => as
  | [], _ :: _ => []

/-- `Merge(other)`: precision check, register-wise maximum, recompute
`h.z = uint16(countZeros(h.reg))` and the cached estimate.  The pair holds
the (possibly unchanged) receiver and the error result. -/
noncomputable def Merge (h other : HyperLogLog) : HyperLogLog × Option String :=
  if h.p ≠ other.p then (h, some "precisions must be equal")
  else
    let reg := mergeReg h.reg other.reg
    let z := countZeros reg % 2 ^ 16
    ({ h with reg := reg, z := z, c := doCount h.m reg z }, none)

/-- `Count()`: reads the cached estimate. -/
def Count (h : HyperLogLog) : ℕ := h.c

/-- One gob-encoded value of the five field types used by the snapshot. -/
inductive GobValue
  | bytes : List ℕ → GobValue
  | u32 : ℕ → GobValue
  | u8 : ℕ → GobValue
  | u64 : ℕ → GobValue
  | u16 : ℕ → GobValue
deriving DecidableEq

/-- One `dec.Decode(&h.reg)` step: a `[]uint8` value, each byte in range. -/
def decBytes : List GobValue → Option (List ℕ × List GobValue)
  | .bytes r :: rest => if ∀ v ∈ r, v < 2 ^ 8 then some (r, rest) else none
  | _ => none

/-- One `dec.Decode(&h.m)` step: a `uint32` value. -/
def decU32 : List GobValue → Option (ℕ × List GobValue)
  | .u32 n :: rest => if n < 2 ^ 32 then some (n, rest) else none
  | _ => none

/-- One `dec.Decode(&h.p)` step: a `uint8` value. -/
def decU8 : List GobValue → Option (ℕ × List GobValue)
  | .u8 n :: rest => if n < 2 ^ 8 then some (n, rest) else none
  | _ => none

/-- One `dec.Decode(&h.c)` step: a `uint64` value. -/
def decU64 : List GobValue → Option (ℕ × List GobValue)
  | .u64 n :: rest => if n < 2 ^ 64 then some (n, rest) else none
  | _ => none

/-- One `dec.Decode(&h.z)` step: a `uint16` value. -/
def decU16 : List GobValue → Option (ℕ × List GobValue)
  | .u16 n :: rest => if n < 2 ^ 16 then some (n, rest) else none
  | _ => none

/-- `GobEncode`: the five fields encoded sequentially, in source order. -/
def GobEncode (h : HyperLogLog) : List GobValue :=
  [.bytes h.reg, .u32 h.m, .u8 h.p, .u64 h.c, .u16 h.z]

/-- `GobDecode`: five sequential decodes into the receiver's fields, each
returning early on error, exactly as the source does.  The pair holds the
receiver after the call and the error result. -/
def GobDecode (h : HyperLogLog) (b : List GobValue) : HyperLogLog × Option String :=
  match decBytes b with
  | none => (h, some "DeserializationError")
  | some (r, b1) =>
    let h1 := { h with reg := r }
    match decU32 b1 with
    | none => (h1, some "DeserializationError")
    | some (mv, b2) =>
      let h2 := { h1 with m := mv }
      match decU8 b2 with
      | none => (h2, some "DeserializationError")
      | some (pv, b3) =>
        let h3 := { h2 with p := pv }
        match decU64 b3 with
        | none => (h3, some "DeserializationError")
        | some (cv, b4) =>
          let h4 := { h3 with c := cv }
          match decU16 b4 with
          | none => (h4, some "DeserializationError")
          | some (zv, _) => ({ h4 with z := zv }, none)

/-- Structural facts guaranteed for every estimator built by `New`:
valid precision, `m = 2^p`, and a register array of length `m`. -/
def Wf (h : HyperLogLog) : Prop :=
  4 ≤ h.p ∧ h.p ≤ 16 ∧ h.m = 2 ^ h.p ∧ h.reg.length = h.m

instance (h : HyperLogLog) : Decidable (Wf h) := by
  unfold Wf; infer_instance

/-- Field ranges imposed by the Go types of the five struct fields. -/
def InRange (h : HyperLogLog) : Prop :=
  (∀ v ∈ h.reg, v < 2 ^ 8) ∧ h.m < 2 ^ 32 ∧ h.p < 2 ^ 8 ∧ h.c < 2 ^ 64 ∧ h.z < 2 ^ 16

instance (h : HyperLogLog) : Decidable (InRange h) := by
  unfold InRange; infer_instance

lemma two32_eq : two32 = 2 ^ 32 := by
  norm_num [two32, Nat.shiftLeft_eq]

lemma one_shiftLeft_eq (k : ℕ) : (1 : ℕ) <<< k = 2 ^ k := by
  rw [Nat.shiftLeft_eq, one_mul]

lemma eb32_lt (x p : ℕ) (hp : p ≤ 32) : eb32 x 32 (32 - p) < 2 ^ p := by
  unfold eb32
  have h1 : x % 2 ^ 32 < 2 ^ 32 := Nat.mod_lt _ (by positivity)
  have h2 : (2 : ℕ) ^ 32 = 2 ^ p * 2 ^ (32 - p) := by
    rw [← pow_add]
    congr 1
    omega
  rw [Nat.div_lt_iff_lt_mul (by positivity)]
  calc x % 2 ^ 32 < 2 ^ 32 := h1
    _ = 2 ^ p * 2 ^ (32 - p) := h2

lemma getD_set_self (l : List ℕ) (i v : ℕ) (hi : i < l.length) :
    (l.set i v).getD i 0 = v := by
  induction l generalizing i with
  | nil => simp at hi
  | cons a as ih =>
    cases i with
    | zero => rfl
    | succ n =>
      have : n < as.length := by simpa using hi
      simpa [List.getD] using ih n this

lemma countZeros_replicate (n : ℕ) : countZeros (List.replicate n 0) = n := by
  unfold countZeros
  induction n with
  | zero => rfl
  | succ k ih => simp [List.replicate_succ, List.count_cons, ih]

lemma New_sixteen : New 16 = Except.ok ⟨List.replicate (2 ^ 16) 0, 2 ^ 16, 16, 0, 0⟩ := by
  unfold New
  rw [if_neg (by omega)]
  norm_num [one_shiftLeft_eq]

/-- The receiver state produced by a successful `Merge`. -/
noncomputable def mergedState (h o : HyperLogLog) : HyperLogLog :=
  { h with
      reg := mergeReg h.reg o.reg
      z := countZeros (mergeReg h.reg o.reg) % 2 ^ 16
      c := doCount h.m (mergeReg h.reg o.reg) (countZeros (mergeReg h.reg o.reg) % 2 ^ 16) }

lemma merge_ok (h o : HyperLogLog) (hp : h.p = o.p) :
    Merge h o = (mergedState h o, none) := by
  simp [Merge, mergedState, hp]

lemma mergeReg_comm : ∀ (as bs : List ℕ), as.length = bs.length → mergeReg as bs = mergeReg bs as := by
  intro as
  induction as with
  | nil =>
    intro bs hb
    cases bs with
    | nil => rfl
    | cons b bs => simp at hb
  | cons a as ih =>
    intro bs hb
    cases bs with
    | nil => simp at hb
    | cons b bs =>
      have ht : as.length = bs.length := by simpa using hb
      simp only [mergeReg, ih bs ht]
      congr 1
      split_ifs <;> omega

lemma mergeReg_length : ∀ (as bs : List ℕ), as.length = bs.length → (mergeReg as bs).length = as.length := by
  intro as
  induction as with
  | nil =>
    intro bs hb
    cases bs with
    | nil => rfl
    | cons b bs => simp at hb
  | cons a as ih =>
    intro bs hb
    cases bs with
    | nil => simp at hb
    | cons b bs =>
      have ht : as.length = bs.length := by simpa using hb
      simp [mergeReg, ih bs ht]

lemma mergeReg_assoc : ∀ (as bs cs : List ℕ), as.length = bs.length → bs.length = cs.length →
    mergeReg (mergeReg as bs) cs = mergeReg as (mergeReg bs cs) := by
  intro as
  induction as with
  | nil =>
    intro bs cs hb hc
    cases bs with
    | nil =>
      cases cs with
      | nil => rfl
      | cons c cs => simp at hc
    | cons b bs => simp at hb
  | cons a as ih =>
    intro bs cs hb hc
    cases bs with
    | nil => simp at hb
    | cons b bs =>
      cases cs with
      | nil => simp at hc
      | cons c cs =>
        have htb : as.length = bs.length := by simpa using hb
        have htc : bs.length = cs.length := by simpa using hc
        simp only [mergeReg, ih bs cs htb htc]
        congr 1
        split_ifs <;> omega

/-- C7: merging two estimators of different precisions fails with the
incompatible-precision error and leaves the receiver (registers,
zero-register count, cached estimate, and hence `Count()`) unmodified. -/
theorem merge_mismatch_unchanged (h o : HyperLogLog) (hp : h.p ≠ o.p) :
    (Merge h o).1 = h ∧ (Merge h o).2 = some "precisions must be equal" ∧
    Count (Merge h o).1 = Count h := by
  have e : Merge h o = (h, some "precisions must be equal") := by simp [Merge, hp]
  exact ⟨by rw [e], by rw [e], by rw [e]⟩

theorem merge_mismatch_unchanged_witness :
    (HyperLogLog.mk (List.replicate 16 0) 16 4 3 16).p ≠ (HyperLogLog.mk (List.replicate 32 0) 32 5 0 32).p ∧
    ((Merge ⟨List.replicate 16 0, 16, 4, 3, 16⟩ ⟨List.replicate 32 0, 32, 5, 0, 32⟩).1 = ⟨List.replicate 16 0, 16, 4, 3, 16⟩ ∧
      (Merge ⟨List.replicate 16 0, 16, 4, 3, 16⟩ ⟨List.replicate 32 0, 32, 5, 0, 32⟩).2 = some "precisions must be equal" ∧
      Count (Merge ⟨List.replicate 16 0, 16, 4, 3, 16⟩ ⟨List.replicate 32 0, 32, 5, 0, 32⟩).1 = Count ⟨List.replicate 16 0, 16, 4, 3, 16⟩) :=
  ⟨by decide, merge_mismatch_unchanged _ _ (by decide)⟩

/-- C8 (code bug): `New(16)` is accepted, but `h.z = uint16(h.m)` truncates
`m = 2^16` to 0, so the fresh estimator's `zero_register_count` is 0 instead
of `m`; the other fields (`m`, registers, cached estimate) are as claimed. -/
theorem new16_z_overflow :
    (New 16).map (fun h => (h.m, h.z)) = Except.ok (2 ^ 16, 0) ∧ (0 : ℕ) ≠ 2 ^ 16 := by
  constructor
  · rw [New_sixteen]
    rfl
  · decide

/-- C6 (code bug): `Clear()` on a validly constructed precision-16 estimator
stores `zero_register_count = uint16(2^16) = 0` while all `2^16` registers
are zero, violating the claimed invariant
`zero_register_count = count(registers[i] == 0)`. -/
theorem clear_z_overflow :
    (New 16).map (fun h => ((Clear h).z, countZeros (Clear h).reg)) = Except.ok (0, 2 ^ 16) ∧
    (0 : ℕ) ≠ 2 ^ 16 := by
  constructor
  · rw [New_sixteen]
    show Except.ok (2 ^ 16 % 2 ^ 16, countZeros (List.replicate (2 ^ 16) 0)) = Except.ok (0, 2 ^ 16)
    rw [Nat.mod_self, countZeros_replicate]
  · decide

/-- C10: decoding performs no consistency validation: this byte stream is
accepted, yet it yields a precision outside `[4,16]`, a register array whose
length differs from `m`, and a `zero_register_count` different from the
number of zero registers. -/
theorem gobDecode_no_validation :
    (GobDecode ⟨[], 16, 4, 0, 16⟩ [.bytes [0, 0], .u32 5, .u8 3, .u64 7, .u16 9]).2 = none ∧
    (GobDecode ⟨[], 16, 4, 0, 16⟩ [.bytes [0, 0], .u32 5, .u8 3, .u64 7, .u16 9]).1.p < 4 ∧
    (GobDecode ⟨[], 16, 4, 0, 16⟩ [.bytes [0, 0], .u32 5, .u8 3, .u64 7, .u16 9]).1.reg.length ≠
      (GobDecode ⟨[], 16, 4, 0, 16⟩ [.bytes [0, 0], .u32 5, .u8 3, .u64 7, .u16 9]).1.m ∧
    (GobDecode ⟨[], 16, 4, 0, 16⟩ [.bytes [0, 0], .u32 5, .u8 3, .u64 7, .u16 9]).1.z ≠
      countZeros (GobDecode ⟨[], 16, 4, 0, 16⟩ [.bytes [0, 0], .u32 5, .u8 3, .u64 7, .u16 9]).1.reg := by
  decide

/-- C3 (counterexample): a truncated stream whose first field decodes makes
`GobDecode` fail while the receiver's register array has already been
replaced, so a failed decode does not leave the instance unchanged. -/
theorem gobDecode_not_atomic :
    ((GobDecode ⟨[], 16, 4, 0, 16⟩ [.bytes [7]]).2).isSome = true ∧
    (GobDecode ⟨[], 16, 4, 0, 16⟩ [.bytes [7]]).1 ≠ ⟨[], 16, 4, 0, 16⟩ := by
  decide

/-- C3 (amended): decoding either fully succeeds, or fails having replaced
only a prefix of the five fields in decode order `reg, m, p, c, z` — every
field from the failure point on (in particular `z`) keeps its old value. -/
theorem gobDecode_fail_prefix (h : HyperLogLog) (b : List GobValue)
    (hf : ((GobDecode h b).2).isSome = true) :
    ∃ r mv pv cv,
      (GobDecode h b).1 = h ∨
      (GobDecode h b).1 = { h with reg := r } ∨
      (GobDecode h b).1 = { h with reg := r, m := mv } ∨
      (GobDecode h b).1 = { h with reg := r, m := mv, p := pv } ∨
      (GobDecode h b).1 = { h with reg := r, m := mv, p := pv, c := cv } := by
  unfold GobDecode at hf ⊢
  cases hb : decBytes b with
  | none =>
    exact ⟨[], 0, 0, 0, Or.inl rfl⟩
  | some rb =>
    obtain ⟨r, b1⟩ := rb
    dsimp only
    cases hm : decU32 b1 with
    | none =>
      exact ⟨r, 0, 0, 0, Or.inr (Or.inl rfl)⟩
    | some mb =>
      obtain ⟨mv, b2⟩ := mb
      dsimp only
      cases hq : decU8 b2 with
      | none =>
        exact ⟨r, mv, 0, 0, Or.inr (Or.inr (Or.inl rfl))⟩
      | some pb =>
        obtain ⟨pv, b3⟩ := pb
        dsimp only
        cases hc : decU64 b3 with
        | none =>
          exact ⟨r, mv, pv, 0, Or.inr (Or.inr (Or.inr (Or.inl rfl)))⟩
        | some cb =>
          obtain ⟨cv, b4⟩ := cb
          dsimp only
          cases hz : decU16 b4 with
          | none =>
            exact ⟨r, mv, pv, cv, Or.inr (Or.inr (Or.inr (Or.inr rfl)))⟩
          | some zb =>
            obtain ⟨zv, b5⟩ := zb
            simp only [hb, hm, hq, hc, hz] at hf
            simp at hf

theorem gobDecode_fail_prefix_witness :
    ((GobDecode ⟨[], 16, 4, 0, 16⟩ [.bytes [7]]).2).isSome = true ∧
    (∃ r mv pv cv,
      (GobDecode ⟨[], 16, 4, 0, 16⟩ [GobValue.bytes [7]]).1 = ⟨[], 16, 4, 0, 16⟩ ∨
      (GobDecode ⟨[], 16, 4, 0, 16⟩ [GobValue.bytes [7]]).1 = ⟨r, 16, 4, 0, 16⟩ ∨
      (GobDecode ⟨[], 16, 4, 0, 16⟩ [GobValue.bytes [7]]).1 = ⟨r, mv, 4, 0, 16⟩ ∨
      (GobDecode ⟨[], 16, 4, 0, 16⟩ [GobValue.bytes [7]]).1 = ⟨r, mv, pv, 0, 16⟩ ∨
      (GobDecode ⟨[], 16, 4, 0, 16⟩ [GobValue.bytes [7]]).1 = ⟨r, mv, pv, cv, 16⟩) :=
  ⟨by decide, gobDecode_fail_prefix ⟨[], 16, 4, 0, 16⟩ [.bytes [7]] (by decide)⟩

/-- C5: the snapshot is the five fields in source order, and decoding the
encoding of any estimator with fields in their Go-type ranges reproduces all
five fields exactly, into any receiver. -/
theorem gob_roundtrip (h h0 : HyperLogLog) (hR : InRange h) :
    GobEncode h = [.bytes h.reg, .u32 h.m, .u8 h.p, .u64 h.c, .u16 h.z] ∧
    GobDecode h0 (GobEncode h) = (h, none) := by
  obtain ⟨reg, m, p, c, z⟩ := h
  obtain ⟨h1, h2, h3, h4, h5⟩ := hR
  dsimp only at h1 h2 h3 h4 h5
  refine ⟨rfl, ?_⟩
  have e1 : decBytes [GobValue.bytes reg, GobValue.u32 m, GobValue.u8 p, GobValue.u64 c, GobValue.u16 z] =
      some (reg, [GobValue.u32 m, GobValue.u8 p, GobValue.u64 c, GobValue.u16 z]) := if_pos h1
  have e2 : decU32 [GobValue.u32 m, GobValue.u8 p, GobValue.u64 c, GobValue.u16 z] =
      some (m, [GobValue.u8 p, GobValue.u64 c, GobValue.u16 z]) := if_pos h2
  have e3 : decU8 [GobValue.u8 p, GobValue.u64 c, GobValue.u16 z] =
      some (p, [GobValue.u64 c, GobValue.u16 z]) := if_pos h3
  have e4 : decU64 [GobValue.u64 c, GobValue.u16 z] = some (c, [GobValue.u16 z]) := if_pos h4
  have e5 : decU16 [GobValue.u16 z] = some (z, []) := if_pos h5
  simp only [GobEncode, GobDecode, e1, e2, e3, e4, e5]

/-- The estimate calculation exactly as the claim words it: four rules tried
in order on `raw = alpha_m * m^2 / sum 2^(-registers[i])` with `m` the
register count, the first matching rule winning. -/
noncomputable def doCountSpec (reg : List ℕ) (z : ℕ) : ℕ :=
  let m := reg.length
  let raw := alpha m * (m : ℚ) ^ 2 / ((reg.map (fun v => ((2 : ℚ) ^ v)⁻¹)).sum)
  if raw ≤ 5 / 2 * (m : ℚ) ∧ 0 < z then
    ⌊(m : ℝ) * Real.log ((m : ℝ) / (z : ℝ))⌋₊
  else if raw ≤ 5 / 2 * (m : ℚ) ∧ z = 0 then ⌊raw⌋₊
  else if raw < ((two32 / 30 : ℕ) : ℚ) then ⌊raw⌋₊
  else ⌊(-(two32 : ℝ)) * Real.log (1 - (raw : ℝ) / (two32 : ℝ))⌋₊

/-- C1: on consistent states (`m` = register count) the estimate calculation
is a pure function of the register array and the zero-register count, and it
evaluates the three regimes in exactly the claimed priority order. -/
theorem doCount_three_regimes (m : ℕ) (reg : List ℕ) (z : ℕ) (hm : m = reg.length) :
    doCount m reg z = doCountSpec reg z := by
  subst hm
  unfold doCount doCountSpec linearCounting
  dsimp only
  have hraw : alpha reg.length * (reg.length : ℚ) ^ 2 / ((reg.map (fun v => ((2 : ℚ) ^ v)⁻¹)).sum) =
      calculateEstimate reg := by
    unfold calculateEstimate
    ring_nf
  rw [hraw]
  have hc : (5 / 2 : ℚ) * (reg.length : ℚ) = (reg.length : ℚ) * (5 / 2) := mul_comm _ _
  rw [hc]
  by_cases hle : calculateEstimate reg ≤ (reg.length : ℚ) * (5 / 2)
  · by_cases hz : z = 0
    · simp [hle, hz]
    · simp [hle, hz, Nat.pos_of_ne_zero hz]
  · simp [hle]

theorem doCount_three_regimes_witness : doCount 2 [0, 0] 5 = doCountSpec [0, 0] 5 :=
  doCount_three_regimes 2 [0, 0] 5 (by decide)

/-- C2: on well-formed estimators and 32-bit hashes, `Add` uses the top `p`
bits of `x` as register index, `w = (x << p) | (1 << (p-1))` in 32 bits,
`rank = clz(w) + 1`, and mutates register, 16-bit zero-register count and
cached estimate exactly when `rank > registers[i]`, else changes nothing. -/
theorem Add_spec (h : HyperLogLog) (x : ℕ) (hW : Wf h) (hx : x < 2 ^ 32) :
    Add h x =
      if clz32 (((x <<< h.p) % two32) ||| (1 <<< (h.p - 1))) + 1 >
          h.reg.getD (x / 2 ^ (32 - h.p)) 0 then
        { h with
            reg := h.reg.set (x / 2 ^ (32 - h.p))
              (clz32 (((x <<< h.p) % two32) ||| (1 <<< (h.p - 1))) + 1)
            z := if h.reg.getD (x / 2 ^ (32 - h.p)) 0 = 0 then (h.z + (2 ^ 16 - 1)) % 2 ^ 16 else h.z
            c := doCount h.m
              (h.reg.set (x / 2 ^ (32 - h.p))
                (clz32 (((x <<< h.p) % two32) ||| (1 <<< (h.p - 1))) + 1))
              (if h.reg.getD (x / 2 ^ (32 - h.p)) 0 = 0 then (h.z + (2 ^ 16 - 1)) % 2 ^ 16 else h.z) }
      else h := by
  obtain ⟨hp4, hp16, -, -⟩ := hW
  have e1 : eb32 x 32 (32 - h.p) = x / 2 ^ (32 - h.p) := by
    unfold eb32
    rw [Nat.mod_eq_of_lt hx]
  have e2 : (1 <<< (h.p - 1)) % two32 = 1 <<< (h.p - 1) := by
    apply Nat.mod_eq_of_lt
    rw [one_shiftLeft_eq, two32_eq]
    have hb : (2 : ℕ) ^ (h.p - 1) ≤ 2 ^ 15 := Nat.pow_le_pow_right (by norm_num) (by omega)
    exact lt_of_le_of_lt hb (by norm_num)
  unfold Add
  dsimp only
  rw [e1, e2]

theorem Add_spec_witness :
    Wf ⟨List.replicate 16 0, 16, 4, 0, 16⟩ ∧ (5 : ℕ) < 2 ^ 32 ∧
    Add ⟨List.replicate 16 0, 16, 4, 0, 16⟩ 5 =
      if clz32 (((5 <<< (4 : ℕ)) % two32) ||| (1 <<< (4 - 1 : ℕ))) + 1 >
          (List.replicate 16 0).getD (5 / 2 ^ (32 - 4)) 0 then
        { reg := (List.replicate 16 0).set (5 / 2 ^ (32 - 4))
            (clz32 (((5 <<< (4 : ℕ)) % two32) ||| (1 <<< (4 - 1 : ℕ))) + 1)
          m := 16
          p := 4
          c := doCount 16
            ((List.replicate 16 0).set (5 / 2 ^ (32 - 4))
              (clz32 (((5 <<< (4 : ℕ)) % two32) ||| (1 <<< (4 - 1 : ℕ))) + 1))
            (if (List.replicate 16 0).getD (5 / 2 ^ (32 - 4)) 0 = 0 then (16 + (2 ^ 16 - 1)) % 2 ^ 16 else 16)
          z := if (List.replicate 16 0).getD (5 / 2 ^ (32 - 4)) 0 = 0 then (16 + (2 ^ 16 - 1)) % 2 ^ 16 else 16 }
      else ⟨List.replicate 16 0, 16, 4, 0, 16⟩ :=
  ⟨by decide, by decide, Add_spec ⟨List.replicate 16 0, 16, 4, 0, 16⟩ 5 (by decide) (by decide)⟩

/-- The second `Add` of the same hash is absorbed: the register already holds
at least the recomputed rank, so the code's guard fails and nothing changes. -/
lemma Add_Add (h : HyperLogLog) (x : ℕ) (hW : Wf h) : Add (Add h x) x = Add h x := by
  obtain ⟨hp4, hp16, hm, hlen⟩ := hW
  by_cases hc : clz32 (((x <<< h.p) % two32) ||| ((1 <<< (h.p - 1)) % two32)) + 1 >
      h.reg.getD (eb32 x 32 (32 - h.p)) 0
  · have hidx : eb32 x 32 (32 - h.p) < h.reg.length := by
      rw [hlen, hm]
      exact eb32_lt x h.p (by omega)
    have e : Add h x = { h with
        reg := h.reg.set (eb32 x 32 (32 - h.p))
          (clz32 (((x <<< h.p) % two32) ||| ((1 <<< (h.p - 1)) % two32)) + 1)
        z := if h.reg.getD (eb32 x 32 (32 - h.p)) 0 = 0 then (h.z + (2 ^ 16 - 1)) % 2 ^ 16 else h.z
        c := doCount h.m
          (h.reg.set (eb32 x 32 (32 - h.p))
            (clz32 (((x <<< h.p) % two32) ||| ((1 <<< (h.p - 1)) % two32)) + 1))
          (if h.reg.getD (eb32 x 32 (32 - h.p)) 0 = 0 then (h.z + (2 ^ 16 - 1)) % 2 ^ 16 else h.z) } := by
      unfold Add
      dsimp only
      rw [if_pos hc]
    rw [e]
    unfold Add
    dsimp only
    rw [getD_set_self _ _ _ hidx, if_neg (lt_irrefl _)]
  · have e : Add h x = h := by
      unfold Add
      dsimp only
      rw [if_neg hc]
    rw [e]
    exact e

/-- C9: after the first `Add` of a 32-bit hash, every further `Add` of the
same hash leaves the entire estimator state (hence `Count()`) unchanged. -/
theorem add_idempotent (h : HyperLogLog) (x n : ℕ) (hW : Wf h) (_hx : x < 2 ^ 32) :
    (fun s => Add s x)^[n] (Add h x) = Add h x := by
  induction n with
  | zero => rfl
  | succ k ih =>
    rw [Function.iterate_succ_apply', ih]
    exact Add_Add h x hW

theorem add_idempotent_witness :
    Wf ⟨List.replicate 16 0, 16, 4, 0, 16⟩ ∧ (5 : ℕ) < 2 ^ 32 ∧
    (fun s => Add s 5)^[3] (Add ⟨List.replicate 16 0, 16, 4, 0, 16⟩ 5) =
      Add ⟨List.replicate 16 0, 16, 4, 0, 16⟩ 5 :=
  ⟨by decide, by decide, add_idempotent ⟨List.replicate 16 0, 16, 4, 0, 16⟩ 5 3 (by decide) (by decide)⟩

/-- C4: for well-formed estimators of equal precision, merging is
commutative in registers and in `Count()`, and associative register-wise. -/
theorem merge_comm_assoc (A B C : HyperLogLog) (hWA : Wf A) (hWB : Wf B) (hWC : Wf C)
    (hAB : A.p = B.p) (hBC : B.p = C.p) :
    (Merge A B).1.reg = (Merge B A).1.reg ∧
    Count (Merge A B).1 = Count (Merge B A).1 ∧
    (Merge (Merge A B).1 C).1.reg = (Merge A (Merge B C).1).1.reg := by
  obtain ⟨-, -, hmA, hlA⟩ := hWA
  obtain ⟨-, -, hmB, hlB⟩ := hWB
  obtain ⟨-, -, hmC, hlC⟩ := hWC
  have hABm : A.m = B.m := by rw [hmA, hmB, hAB]
  have hlenAB : A.reg.length = B.reg.length := by rw [hlA, hlB, hABm]
  have hlenBC : B.reg.length = C.reg.length := by rw [hlB, hlC, hmB, hmC, hBC]
  have c1 : mergeReg A.reg B.reg = mergeReg B.reg A.reg := mergeReg_comm _ _ hlenAB
  refine ⟨?_, ?_, ?_⟩
  · rw [merge_ok A B hAB, merge_ok B A hAB.symm]
    show mergeReg A.reg B.reg = mergeReg B.reg A.reg
    exact c1
  · rw [merge_ok A B hAB, merge_ok B A hAB.symm]
    show doCount A.m (mergeReg A.reg B.reg) (countZeros (mergeReg A.reg B.reg) % 2 ^ 16) =
      doCount B.m (mergeReg B.reg A.reg) (countZeros (mergeReg B.reg A.reg) % 2 ^ 16)
    rw [c1, hABm]
  · rw [merge_ok A B hAB, merge_ok B C hBC]
    have hpABC : (mergedState A B).p = C.p := hAB.trans hBC
    have hpA_BC : A.p = (mergedState B C).p := hAB
    rw [merge_ok _ _ hpABC, merge_ok _ _ hpA_BC]
    show mergeReg (mergeReg A.reg B.reg) C.reg = mergeReg A.reg (mergeReg B.reg C.reg)
    exact mergeReg_assoc _ _ _ hlenAB hlenBC

theorem merge_comm_assoc_witness :
    Wf ⟨List.replicate 16 0, 16, 4, 0, 16⟩ ∧
    Wf ⟨(List.replicate 16 0).set 3 5, 16, 4, 0, 15⟩ ∧
    Wf ⟨(List.replicate 16 0).set 2 7, 16, 4, 9, 15⟩ ∧
    ((Merge ⟨List.replicate 16 0, 16, 4, 0, 16⟩ ⟨(List.replicate 16 0).set 3 5, 16, 4, 0, 15⟩).1.reg =
        (Merge ⟨(List.replicate 16 0).set 3 5, 16, 4, 0, 15⟩ ⟨List.replicate 16 0, 16, 4, 0, 16⟩).1.reg ∧
      Count (Merge ⟨List.replicate 16 0, 16, 4, 0, 16⟩ ⟨(List.replicate 16 0).set 3 5, 16, 4, 0, 15⟩).1 =
        Count (Merge ⟨(List.replicate 16 0).set 3 5, 16, 4, 0, 15⟩ ⟨List.replicate 16 0, 16, 4, 0, 16⟩).1 ∧
      (Merge (Merge ⟨List.replicate 16 0, 16, 4, 0, 16⟩ ⟨(List.replicate 16 0).set 3 5, 16, 4, 0, 15⟩).1
            ⟨(List.replicate 16 0).set 2 7, 16, 4, 9, 15⟩).1.reg =
        (Merge ⟨List.replicate 16 0, 16, 4, 0, 16⟩
            (Merge ⟨(List.replicate 16 0).set 3 5, 16, 4, 0, 15⟩ ⟨(List.replicate 16 0).set 2 7, 16, 4, 9, 15⟩).1).1.reg) :=
  ⟨by decide, by decide, by decide,
    merge_comm_assoc ⟨List.replicate 16 0, 16, 4, 0, 16⟩ ⟨(List.replicate 16 0).set 3 5, 16, 4, 0, 15⟩
      ⟨(List.replicate 16 0).set 2 7, 16, 4, 9, 15⟩ (by decide) (by decide) (by decide) rfl rfl⟩

theorem gob_roundtrip_witness :
    InRange ⟨[3, 0], 16, 4, 7, 15⟩ ∧
    (GobEncode ⟨[3, 0], 16, 4, 7, 15⟩ =
        [.bytes [3, 0], .u32 16, .u8 4, .u64 7, .u16 15] ∧
      GobDecode ⟨[], 0, 0, 0, 0⟩ (GobEncode ⟨[3, 0], 16, 4, 7, 15⟩) = (⟨[3, 0], 16, 4, 7, 15⟩, none)) :=
  ⟨by decide, gob_roundtrip ⟨[3, 0], 16, 4, 7, 15⟩ ⟨[], 0, 0, 0, 0⟩ (by decide)⟩

end HLL
